import Mathlib

/-!
Verification of the Solana-like client primitives of this repository
(`solana.ts`: base-58 codec, compact-length encoding, message compilation,
transaction serialization and signing) and of the client transport's
response normalization (`client.ts`).  Byte sequences are modelled as
`List Nat` with an explicit `< 256` bound where it matters; fallible
operations return `Except String`.
-/

set_option maxRecDepth 4000

namespace Solana

/-- The base-58 alphabet, exactly as in the source (`ALPHABET`). -/
def ALPHABET : List Char :=
  "123456789ABCDEFGHJKLMNPQRSTUVWXYZabcdefghijkmnopqrstuvwxyz".toList

/-- Model of `ALPHABET_MAP` of the source: the digit value of a character, `none`
for characters outside the alphabet. -/
def alphabetMap (c : Char) : Option Nat :=
  ALPHABET.findIdx? (· == c)

/-- Base-`b` digits of `n`, least significant first, produced by the
`while value > 0` loops of the source.  The extra `fuel` argument bounds
the number of iterations so the recursion is structural; `fuel = n`
always suffices because the value strictly shrinks every iteration. -/
def toDigitsAux (b : Nat) : Nat → Nat → List Nat
  | 0, _ => []
  | fuel + 1, n => if n = 0 then [] else n % b :: toDigitsAux b fuel (n / b)

/-- Model of `base58Encode` of the source, producing the character list of the
output string: leading zero bytes (`zeros`) become leading `'1'`
characters, the rest is the big-endian base-58 representation of the
value of the bytes read as a big-endian integer (the source's local
`zeros`/`value`/`encoded` bindings are inlined). -/
def base58EncodeChars (bytes : List Nat) : List Char :=
  if bytes.isEmpty then []
  else
    List.replicate (bytes.takeWhile (· == 0)).length '1' ++
      (toDigitsAux 58 (bytes.foldl (fun v b => v * 256 + b) 0)
        (bytes.foldl (fun v b => v * 256 + b) 0)).reverse.map
        (fun d => ALPHABET.getD d ' ')

/-- Model of `base58Encode` of the source. -/
def base58Encode (bytes : List Nat) : String :=
  String.mk (base58EncodeChars bytes)

/-- One iteration of the accumulation loop of `base58Decode`:
`acc = acc * 58 + digit`, failing on an unrecognized character. -/
def decodeStep (a : Nat) (c : Char) : Except String Nat :=
  match alphabetMap c with
  | none => .error "invalid base58 character"
  | some digit => .ok (a * 58 + digit)

/-- Model of `base58Decode` of the source, over the character list of the input:
leading `'1'` characters become leading zero bytes, every character is
folded into the accumulator (error on an unknown character), and the
source pushes the accumulator's base-256 digits LSB-first, appends the
zero bytes, then reverses the whole buffer. -/
def base58DecodeChars (chars : List Char) : Except String (List Nat) :=
  if chars.isEmpty then .ok []
  else
    match chars.foldlM decodeStep 0 with
    | .error e => .error e
    | .ok acc =>
      .ok ((toDigitsAux 256 acc acc) ++
        List.replicate (chars.takeWhile (· == '1')).length 0).reverse

/-- Model of `base58Decode` of the source. -/
def base58Decode (value : String) : Except String (List Nat) :=
  base58DecodeChars value.data

/-- Model of `shortvecEncode` of the source: 7 bits at a time, least significant
group first, high bit marks continuation.  `fuel` bounds the loop
(structural recursion); `length + 1` iterations always suffice. -/
def shortvecEncodeAux (b : Nat) : Nat → Nat → List Nat
  | 0, _ => []
  | fuel + 1, rem =>
    let elem := rem &&& 0x7f
    let rem2 := rem >>> 7
    if rem2 = 0 then [elem] else (elem ||| 0x80) :: shortvecEncodeAux b fuel rem2

/-- Model of `shortvecEncode` of the source (the `b` argument of the auxiliary is
unused padding to keep the recursion uniform). -/
def shortvecEncode (length : Nat) : List Nat :=
  shortvecEncodeAux 0 (length + 1) length

/-- Model of `toLittleEndian` of the source: fixed-width little-endian bytes. -/
def toLittleEndian : Nat → Nat → List Nat
  | _, 0 => []
  | value, n + 1 => (value &&& 0xff) :: toLittleEndian (value >>> 8) n

/-- Model of `PublicKey` of the source: exactly 32 bytes (a `Uint8Array`, so every
entry is a byte value). -/
def PublicKey := { l : List Nat // l.length = 32 ∧ ∀ b ∈ l, b < 256 }

instance : DecidableEq PublicKey := fun a b =>
  decidable_of_iff (a.val = b.val) Subtype.ext_iff.symm

/-- Model of `PublicKey.toBase58` of the source. -/
def PublicKey.toBase58 (p : PublicKey) : String := base58Encode p.val

/-- The `{ pubkey, isSigner, isWritable }` account-reference records used
by instructions and by the compiler's meta map. -/
structure AccountMeta where
  pubkey : PublicKey
  isSigner : Bool
  isWritable : Bool
deriving DecidableEq

/-- Model of `InstructionInput` of the source. -/
structure InstructionInput where
  programId : PublicKey
  keys : List AccountMeta
  data : List Nat
deriving DecidableEq

structure MessageHeader where
  requiredSignatures : Nat
  readonlySigned : Nat
  readonlyUnsigned : Nat
deriving DecidableEq

structure CompiledInstruction where
  programIdIndex : Nat
  accounts : List Nat
  data : List Nat
deriving DecidableEq

/-- Model of `CompiledMessage` of the source. -/
structure CompiledMessage where
  accountKeys : List PublicKey
  header : MessageHeader
  recentBlockhash : String
  instructions : List CompiledInstruction
deriving DecidableEq

/-- The in-place flag merge of `addMeta`:
`existing.isSigner ||= incoming.isSigner`,
`existing.isWritable ||= incoming.isWritable`. -/
def mergeFlags (e meta : AccountMeta) : AccountMeta :=
  { e with isSigner := e.isSigner || meta.isSigner,
           isWritable := e.isWritable || meta.isWritable }

/-- The per-entry update `addMeta` performs on the stored map: the entry
whose base-58 key matches the incoming meta gets its flags merged. -/
def updMeta (meta e : AccountMeta) : AccountMeta :=
  if e.pubkey.toBase58 == meta.pubkey.toBase58 then mergeFlags e meta else e

/-- Model of `addMeta` of `compile`: insertion-ordered merge keyed by the base-58
form of the pubkey (the source's `Map` keyed by `toBase58()`); a new key
is appended, an existing entry gets its flags OR-merged in place. -/
def addMeta (metas : List AccountMeta) (meta : AccountMeta) : List AccountMeta :=
  if metas.any (fun e => e.pubkey.toBase58 == meta.pubkey.toBase58) then
    metas.map (updMeta meta)
  else metas ++ [meta]

/-- The merged metas of `compile` in insertion order: the fee payer as
signer+writable, then for each instruction its program id as
nonsigner+readonly followed by its account references. -/
def mergedMetas (payerKey : PublicKey) (instructions : List InstructionInput) :
    List AccountMeta :=
  instructions.foldl
    (fun acc ix => ix.keys.foldl addMeta (addMeta acc ⟨ix.programId, false, false⟩))
    (addMeta [] ⟨payerKey, true, true⟩)

/-- The flattened sequence of `addMeta` arguments of `compile`
(`mergedMetas` is exactly a left fold of `addMeta` over it, see
`mergedMetas_eq_foldl`). -/
def metaRefs (payerKey : PublicKey) (instructions : List InstructionInput) :
    List AccountMeta :=
  ⟨payerKey, true, true⟩ ::
    instructions.flatMap (fun ix => ⟨ix.programId, false, false⟩ :: ix.keys)

/-- Model of `signers` of `compile`. -/
def signerMetas (payerKey : PublicKey) (instructions : List InstructionInput) :
    List AccountMeta :=
  (mergedMetas payerKey instructions).filter (fun m => m.isSigner)

/-- Model of `nonSigners` of `compile`. -/
def nonSignerMetas (payerKey : PublicKey) (instructions : List InstructionInput) :
    List AccountMeta :=
  (mergedMetas payerKey instructions).filter (fun m => !m.isSigner)

/-- Model of `ordered` of `compile`: the stable 4-way partition
signer+writable, signer+readonly, nonsigner+writable, nonsigner+readonly. -/
def orderedMetas (payerKey : PublicKey) (instructions : List InstructionInput) :
    List AccountMeta :=
  (signerMetas payerKey instructions).filter (fun m => m.isWritable) ++
    (signerMetas payerKey instructions).filter (fun m => !m.isWritable) ++
    (nonSignerMetas payerKey instructions).filter (fun m => m.isWritable) ++
    (nonSignerMetas payerKey instructions).filter (fun m => !m.isWritable)

/-- Model of `indexFor` of `compile`.  The source builds a base58-key → position
map over `ordered` with last-write-wins; the table's keys are pairwise
distinct, so the first match is that position. -/
def indexFor (ordered : List AccountMeta) (p : PublicKey) : Nat :=
  ordered.findIdx (fun m => m.pubkey.toBase58 == p.toBase58)

/-- Model of `compile` of the source. -/
def compile (payerKey : PublicKey) (recentBlockhash : String)
    (instructions : List InstructionInput) : CompiledMessage :=
  { accountKeys := (orderedMetas payerKey instructions).map (fun m => m.pubkey)
    header :=
      { requiredSignatures := (signerMetas payerKey instructions).length
        readonlySigned :=
          ((signerMetas payerKey instructions).filter (fun m => !m.isWritable)).length
        readonlyUnsigned :=
          ((nonSignerMetas payerKey instructions).filter
            (fun m => !m.isWritable)).length }
    recentBlockhash := recentBlockhash
    instructions := instructions.map (fun ix =>
      { programIdIndex := indexFor (orderedMetas payerKey instructions) ix.programId
        accounts :=
          ix.keys.map (fun k => indexFor (orderedMetas payerKey instructions) k.pubkey)
        data := ix.data }) }

/-- Model of `serializeMessage` of the source: 3 header bytes, compact-length
account table, the decoded 32-byte blockhash (error if the blockhash
does not decode to exactly 32 bytes), compact-length instruction list. -/
def serializeMessage (compiled : CompiledMessage) : Except String (List Nat) :=
  match base58Decode compiled.recentBlockhash with
  | .error e => .error e
  | .ok blockhashBytes =>
    if blockhashBytes.length ≠ 32 then .error "invalid blockhash length"
    else
      .ok ([compiled.header.requiredSignatures &&& 0xff,
            compiled.header.readonlySigned &&& 0xff,
            compiled.header.readonlyUnsigned &&& 0xff] ++
        shortvecEncode compiled.accountKeys.length ++
        compiled.accountKeys.flatMap (fun k => k.val) ++
        blockhashBytes ++
        shortvecEncode compiled.instructions.length ++
        compiled.instructions.flatMap (fun ix =>
          ix.programIdIndex :: (shortvecEncode ix.accounts.length ++ ix.accounts ++
            shortvecEncode ix.data.length ++ ix.data)))

/-- Model of `Keypair` of the source, with the signing capability abstracted as an
opaque function over the exact message bytes (the spec places key
generation and signature production out of scope). -/
structure Keypair where
  publicKey : PublicKey
  sign : List Nat → List Nat

/-- Model of `Transaction` of the source (legacy): fee payer, blockhash,
instruction list and the stored `(publicKey, signature)` pairs. -/
structure Transaction where
  recentBlockhash : String
  feePayer : PublicKey
  instructions : List InstructionInput
  signatures : List (PublicKey × List Nat)

/-- Model of `Transaction.sign` of the source: recompiles and serializes the
message and replaces the stored signature list with one
`(publicKey, signature)` pair per supplied keypair, in argument order. -/
def Transaction.sign (tx : Transaction) (signers : List Keypair) :
    Except String Transaction :=
  match serializeMessage (compile tx.feePayer tx.recentBlockhash tx.instructions) with
  | .error e => .error e
  | .ok message =>
    .ok { tx with
      signatures := signers.map (fun kp => (kp.publicKey, kp.sign message)) }

/-- Model of `Transaction.serialize` of the source: fails when no signatures are
stored, else compact signature count, signature bytes, message bytes. -/
def Transaction.serialize (tx : Transaction) : Except String (List Nat) :=
  if tx.signatures.length = 0 then .error "transaction not signed"
  else
    match serializeMessage (compile tx.feePayer tx.recentBlockhash tx.instructions) with
    | .error e => .error e
    | .ok message =>
      .ok (shortvecEncode tx.signatures.length ++
        (tx.signatures.map (fun s => s.2)).flatten ++ message)

/-- Model of `MessageV0` of the source: a pre-compiled message. -/
structure MessageV0 where
  compiled : CompiledMessage

/-- Model of `TransactionMessage.compileToV0Message` of the source. -/
def compileToV0Message (payerKey : PublicKey) (recentBlockhash : String)
    (instructions : List InstructionInput) : MessageV0 :=
  ⟨compile payerKey recentBlockhash instructions⟩

/-- Model of `MessageV0.serialize` of the source: version-0 flag byte `0x80`
followed by the message bytes. -/
def MessageV0.serialize (m : MessageV0) : Except String (List Nat) :=
  match serializeMessage m.compiled with
  | .error e => .error e
  | .ok msg => .ok (0x80 :: msg)

/-- Model of `VersionedTransaction` of the source. -/
structure VersionedTransaction where
  message : MessageV0
  signatures : List (PublicKey × List Nat)

/-- Model of `VersionedTransaction.sign` of the source: serializes the stored
message and replaces the signature list with one pair per keypair. -/
def VersionedTransaction.sign (tx : VersionedTransaction) (signers : List Keypair) :
    Except String VersionedTransaction :=
  match tx.message.serialize with
  | .error e => .error e
  | .ok messageBytes =>
    .ok { tx with
      signatures := signers.map (fun kp => (kp.publicKey, kp.sign messageBytes)) }

/-- Model of `VersionedTransaction.serialize` of the source. -/
def VersionedTransaction.serialize (tx : VersionedTransaction) :
    Except String (List Nat) :=
  if tx.signatures.length = 0 then .error "transaction not signed"
  else
    match tx.message.serialize with
    | .error e => .error e
    | .ok messageBytes =>
      .ok (shortvecEncode tx.signatures.length ++
        (tx.signatures.map (fun s => s.2)).flatten ++ messageBytes)

/-- Model of `SYSTEM_PROGRAM_ID` of the source. -/
def SYSTEM_PROGRAM_ID : String := "11111111111111111111111111111111"

/-- Model of `SystemProgram.programId`: the source decodes `SYSTEM_PROGRAM_ID`
(32 `'1'` characters), which yields 32 zero bytes; see
`systemProgramId_decode`. -/
def systemProgramId : PublicKey := ⟨List.replicate 32 0, by decide⟩

/-- Model of `SystemProgram.transfer` of the source: 4-byte little-endian
discriminator `2`, 8-byte little-endian lamport amount; `from` is
signer+writable, `to` is nonsigner+writable. -/
def SystemProgram.transfer (fromPubkey toPubkey : PublicKey) (lamports : Nat) :
    InstructionInput :=
  { programId := systemProgramId
    keys := [⟨fromPubkey, true, true⟩, ⟨toPubkey, false, true⟩]
    data := toLittleEndian 2 4 ++ toLittleEndian lamports 8 }

/-- Concrete 32-byte key fixture (31 zero bytes then `1`) for the
concrete-input theorems. -/
def testKeyA : PublicKey := ⟨List.replicate 31 0 ++ [1], by decide⟩

/-- Concrete 32-byte key fixture (31 zero bytes then `2`). -/
def testKeyB : PublicKey := ⟨List.replicate 31 0 ++ [2], by decide⟩

/-- Concrete 32-byte key fixture (31 zero bytes then `3`). -/
def testKeyC : PublicKey := ⟨List.replicate 31 0 ++ [3], by decide⟩

/-- A blockhash string fixture that decodes to 32 bytes (32 `'1'`
characters decode to 32 zero bytes). -/
def testBlockhash : String := "11111111111111111111111111111111"

/-- A keypair fixture with a constant opaque signing function. -/
def testKeypair : Keypair := ⟨testKeyA, fun _ => List.replicate 64 1⟩

/-- Instruction fixture: system program, one nonsigner/writable account
`testKeyB`, no data. -/
def testIx1 : InstructionInput := ⟨systemProgramId, [⟨testKeyB, false, true⟩], []⟩

/-- Instruction fixture: system program, one nonsigner/writable account
`testKeyC`, no data. -/
def testIx2 : InstructionInput := ⟨systemProgramId, [⟨testKeyC, false, true⟩], []⟩

/-- An unsigned legacy transaction fixture with a valid blockhash. -/
def testTx : Transaction := ⟨testBlockhash, testKeyA, [], []⟩

/-- Model of `testTx` after signing with `[testKeypair]`. -/
def testSignedTx : Transaction :=
  ⟨testBlockhash, testKeyA, [], [(testKeyA, List.replicate 64 1)]⟩

/-- An unsigned versioned transaction fixture with a valid blockhash. -/
def testVtx : VersionedTransaction := ⟨⟨compile testKeyA testBlockhash []⟩, []⟩

/-- Model of `testVtx` after signing with `[testKeypair]`. -/
def testSignedVtx : VersionedTransaction :=
  ⟨⟨compile testKeyA testBlockhash []⟩, [(testKeyA, List.replicate 64 1)]⟩

/-- Model of the JavaScript values flowing through the client
transport's response normalization (`client.ts`): `null`/`undefined`,
booleans, integral numbers, strings and plain objects with an
insertion-ordered field list. -/
inductive JSValue where
  | null
  | undefined
  | boolean (b : Bool)
  | number (n : Int)
  | str (s : String)
  | object (fields : List (String × JSValue))

/-- JavaScript truthiness of a modelled value. -/
def JSValue.truthy : JSValue → Bool
  | .null => false
  | .undefined => false
  | .boolean b => b
  | .number n => n != 0
  | .str s => s != ""
  | .object _ => true

def JSValue.isObject : JSValue → Bool
  | .object _ => true
  | _ => false

def JSValue.isString : JSValue → Bool
  | .str _ => true
  | _ => false

/-- First field with the given name (JS object property lookup). -/
def lookupField (fields : List (String × JSValue)) (name : String) : Option JSValue :=
  match fields.find? (fun f => f.1 == name) with
  | some f => some f.2
  | none => none

/-- The JS `"name" in v` check on a plain object. -/
def JSValue.hasField : JSValue → String → Bool
  | .object fields, name => (lookupField fields name).isSome
  | _, _ => false

/-- JS property access `v.name`: a missing field, or a non-object
receiver (matching the optional-chaining use sites of the source),
yields `undefined`. -/
def JSValue.getField : JSValue → String → JSValue
  | .object fields, name => (lookupField fields name).getD .undefined
  | _, _ => .undefined

/-- Model of `normalizeSendResult` of `client.ts`: an envelope that already has a
`status` field passes through; a raw string becomes
`{status: "ok", signature: <string>}`; anything else becomes
`{status: "ok", value: <result>}`. -/
def normalizeSendResult (result : JSValue) : JSValue :=
  if result.truthy && result.isObject && result.hasField "status" then result
  else if result.isString then
    .object [("status", .str "ok"), ("signature", result)]
  else
    .object [("status", .str "ok"), ("value", result)]

/-- Model of `normalizeSimulationResult` of `client.ts`: a `status`-bearing object
passes through; otherwise a truthy `value` field maps to status `"err"`
or `"ok"` by the truthiness of `value.err`; otherwise status `"ok"`. -/
def normalizeSimulationResult (result : JSValue) : JSValue :=
  if result.truthy && result.isObject && result.hasField "status" then result
  else if (result.getField "value").truthy then
    .object [("status",
        if ((result.getField "value").getField "err").truthy
        then .str "err" else .str "ok"),
      ("value", result)]
  else
    .object [("status", .str "ok"), ("value", result)]

end Solana

namespace Solana

/-- C7: the compact-length encoding at its boundary values: 0 → `00`,
127 → `7f`, 128 → `80 01`, 16383 → `ff 7f`, 16384 → `80 80 01`. -/
theorem shortvec_boundary_values :
    shortvecEncode 0 = [0x00] ∧
    shortvecEncode 127 = [0x7f] ∧
    shortvecEncode 128 = [0x80, 0x01] ∧
    shortvecEncode 16383 = [0xff, 0x7f] ∧
    shortvecEncode 16384 = [0x80, 0x80, 0x01] := by
  decide

/-! ### Base-58 round trip -/

lemma toDigitsAux_eq_digits {b : Nat} (hb : 2 ≤ b) :
    ∀ fuel n, n ≤ fuel → toDigitsAux b fuel n = Nat.digits b n := by
  intro fuel
  induction fuel with
  | zero =>
    intro n hn
    have h0 : n = 0 := Nat.le_zero.mp hn
    subst h0
    simp [toDigitsAux]
  | succ fuel ih =>
    intro n hn
    by_cases h0 : n = 0
    · subst h0; simp [toDigitsAux]
    · have hdiv : n / b ≤ fuel := by
        have h1 : n / b < n := Nat.div_lt_self (Nat.pos_of_ne_zero h0) (by omega)
        omega
      rw [toDigitsAux, if_neg h0, ih (n / b) hdiv,
        Nat.digits_def' (show 1 < b by omega) (Nat.pos_of_ne_zero h0)]

lemma ofDigits_replicate_zero (b : Nat) (n : Nat) :
    Nat.ofDigits b (List.replicate n 0) = 0 := by
  induction n with
  | zero => rfl
  | succ k ih => simp [List.replicate_succ, Nat.ofDigits_cons, ih]

lemma foldl_mul_add (b : Nat) :
    ∀ (L : List Nat) (a : Nat),
      L.foldl (fun v d => v * b + d) a = a * b ^ L.length + Nat.ofDigits b L.reverse := by
  intro L
  induction L with
  | nil => intro a; simp [Nat.ofDigits]
  | cons x t ih =>
    intro a
    simp only [List.foldl_cons, List.reverse_cons, List.length_cons]
    rw [ih, Nat.ofDigits_append]
    simp only [Nat.ofDigits_singleton, List.length_reverse, pow_succ]
    ring

lemma alphabetMap_one : alphabetMap '1' = some 0 := by decide

lemma alphabetMap_getD : ∀ d, d < 58 → alphabetMap (ALPHABET.getD d ' ') = some d := by
  decide

lemma alphabet_getD_ne_one : ∀ d, d < 58 → d ≠ 0 → ALPHABET.getD d ' ' ≠ '1' := by
  decide

lemma foldlM_decodeStep_ok :
    ∀ (cs : List Char) (a : Nat), (∀ c ∈ cs, (alphabetMap c).isSome) →
      cs.foldlM decodeStep a =
        .ok (cs.foldl (fun v c => v * 58 + (alphabetMap c).getD 0) a) := by
  intro cs
  induction cs with
  | nil => intro a _; rfl
  | cons c t ih =>
    intro a hall
    have hc : (alphabetMap c).isSome := hall c (List.mem_cons_self c t)
    obtain ⟨d, hd⟩ := Option.isSome_iff_exists.mp hc
    have ht := ih (a * 58 + d) (fun x hx => hall x (List.mem_cons_of_mem _ hx))
    simp only [List.foldlM_cons, List.foldl_cons, decodeStep, hd, Option.getD_some]
    exact ht

lemma foldl_pure_ones (z : Nat) :
    (List.replicate z '1').foldl (fun v c => v * 58 + (alphabetMap c).getD 0) 0 = 0 := by
  induction z with
  | zero => rfl
  | succ k ih =>
    simp only [List.replicate_succ, List.foldl_cons, alphabetMap_one, Option.getD_some]
    simpa using ih

lemma foldl_pure_digitChars (ds : List Nat) (hds : ∀ d ∈ ds, d < 58) :
    ∀ (a : Nat),
      (ds.map (fun d => ALPHABET.getD d ' ')).foldl
          (fun v c => v * 58 + (alphabetMap c).getD 0) a
        = ds.foldl (fun v d => v * 58 + d) a := by
  induction ds with
  | nil => intro a; rfl
  | cons d t ih =>
    intro a
    have hd : alphabetMap (ALPHABET.getD d ' ') = some d :=
      alphabetMap_getD d (hds d (List.mem_cons_self d t))
    simp only [List.map_cons, List.foldl_cons, hd, Option.getD_some]
    exact ih (fun x hx => hds x (List.mem_cons_of_mem _ hx)) _

lemma takeWhile_replicate_append_cons {α : Type} (p : α → Bool) (z : Nat) (a x : α)
    (xs : List α) (ha : p a = true) (hx : p x = false) :
    (List.replicate z a ++ x :: xs).takeWhile p = List.replicate z a := by
  induction z with
  | zero => simp [List.takeWhile_cons, hx]
  | succ k ih => simp [List.replicate_succ, List.takeWhile_cons, ha, ih]

lemma takeWhile_zero_eq_replicate (B : List Nat) :
    B.takeWhile (· == 0) = List.replicate (B.takeWhile (· == 0)).length 0 := by
  induction B with
  | nil => rfl
  | cons x t ih =>
    by_cases hx : x = 0
    · subst hx
      rw [List.takeWhile_cons_of_pos (by simp)]
      simp only [List.length_cons, List.replicate_succ]
      exact congrArg (0 :: ·) ih
    · simp [List.takeWhile_cons, hx]

lemma roundtripChars (B : List Nat) (h : ∀ b ∈ B, b < 256) :
    base58DecodeChars (base58EncodeChars B) = .ok B ∧
    ((base58EncodeChars B).takeWhile (· == '1')).length
      = (B.takeWhile (· == 0)).length := by
  by_cases hB : B = []
  · subst hB
    exact ⟨rfl, rfl⟩
  · set z := (B.takeWhile (· == 0)).length with hz
    set B' := B.dropWhile (· == 0) with hB'
    have hTW : B.takeWhile (· == 0) = List.replicate z 0 := takeWhile_zero_eq_replicate B
    have hsplit : List.replicate z 0 ++ B' = B := by
      rw [← hTW, hB']
      exact List.takeWhile_append_dropWhile (· == 0) B
    have hval : B.foldl (fun v b => v * 256 + b) 0 = Nat.ofDigits 256 B'.reverse := by
      rw [foldl_mul_add, ← hsplit, List.reverse_append, List.reverse_replicate,
        Nat.ofDigits_append, ofDigits_replicate_zero]
      simp
    set v := Nat.ofDigits 256 B'.reverse with hv
    have hchars : base58EncodeChars B =
        List.replicate z '1' ++
          (Nat.digits 58 v).reverse.map (fun d => ALPHABET.getD d ' ') := by
      rw [base58EncodeChars, if_neg (by simpa [List.isEmpty_iff] using hB), hval,
        toDigitsAux_eq_digits (by norm_num) v v le_rfl]
    have hd58 : ∀ d ∈ (Nat.digits 58 v).reverse, d < 58 := fun d hd =>
      Nat.digits_lt_base (by norm_num) (List.mem_reverse.mp hd)
    have hvalid : ∀ c ∈ base58EncodeChars B, (alphabetMap c).isSome := by
      rw [hchars]
      intro c hc
      rcases List.mem_append.mp hc with h1 | h2
      · rw [List.eq_of_mem_replicate h1, alphabetMap_one]; rfl
      · obtain ⟨d, hd, rfl⟩ := List.mem_map.mp h2
        rw [alphabetMap_getD d (hd58 d hd)]; rfl
    have hacc : (base58EncodeChars B).foldlM decodeStep 0 = .ok v := by
      rw [foldlM_decodeStep_ok _ 0 hvalid, hchars, List.foldl_append, foldl_pure_ones,
        foldl_pure_digitChars _ hd58 0, foldl_mul_add, List.reverse_reverse,
        Nat.ofDigits_digits]
      simp
    by_cases hB'e : B' = []
    · -- all bytes of `B` are zero
      have hBz : B = List.replicate z 0 := by rw [← hsplit, hB'e, List.append_nil]
      have hz0 : 0 < z := by
        rcases Nat.eq_zero_or_pos z with h0 | h0
        · exact absurd (by rw [hBz, h0]; rfl) hB
        · exact h0
      have hv0 : v = 0 := by rw [hv, hB'e]; rfl
      have hchars' : base58EncodeChars B = List.replicate z '1' := by
        rw [hchars, hv0]
        simp
      constructor
      · rw [base58DecodeChars, if_neg (by rw [hchars']; simp [List.isEmpty_iff]; omega),
          hacc, hv0, hchars']
        rw [List.takeWhile_replicate]
        simp [hBz, toDigitsAux]
      · rw [hchars', List.takeWhile_replicate]
        simp [hz]
    · -- `B` has a nonzero byte
      have hhead : ¬(B'.head hB'e = 0) := by
        have := List.head_dropWhile_not (· == 0) B (by rw [← hB']; exact hB'e)
        simp only [← hB'] at this
        simpa using this
      have hbound' : ∀ x ∈ B'.reverse, x < 256 := fun x hx =>
        h x (List.dropWhile_subset _ (List.mem_reverse.mp hx))
      have hrevne : B'.reverse ≠ [] := by simpa using hB'e
      have hlast : ∀ hh : B'.reverse ≠ [], B'.reverse.getLast hh ≠ 0 := by
        intro hh
        have h1 : B'.reverse.getLast? = some (B'.head hB'e) := by
          rw [List.getLast?_reverse, List.head?_eq_head]
        have h2 : B'.reverse.getLast? = some (B'.reverse.getLast hh) :=
          List.getLast?_eq_getLast _ hh
        rw [h1] at h2
        intro hcontra
        rw [hcontra] at h2
        exact hhead (Option.some_injective _ h2)
      have hdig256 : Nat.digits 256 v = B'.reverse := by
        rw [hv]
        exact Nat.digits_ofDigits 256 (by norm_num) B'.reverse hbound' hlast
      have hv0 : v ≠ 0 := by
        intro h0
        rw [h0, Nat.digits_zero] at hdig256
        exact hrevne hdig256.symm
      have hdig58ne : Nat.digits 58 v ≠ [] := Nat.digits_ne_nil_iff_ne_zero.mpr hv0
      have hrev58ne : (Nat.digits 58 v).reverse ≠ [] := by simpa using hdig58ne
      obtain ⟨d0, rest, hdrest⟩ := List.exists_cons_of_ne_nil hrev58ne
      have hd0lt : d0 < 58 := hd58 d0 (by rw [hdrest]; exact List.mem_cons_self _ _)
      have hd0ne : d0 ≠ 0 := by
        have h1 : (Nat.digits 58 v).reverse.head? = some d0 := by rw [hdrest]; rfl
        rw [List.head?_reverse] at h1
        have h3 : (Nat.digits 58 v).getLast? =
            some ((Nat.digits 58 v).getLast hdig58ne) :=
          List.getLast?_eq_getLast _ _
        rw [h1] at h3
        have h4 := Nat.getLast_digit_ne_zero 58 hv0
        intro hcontra
        rw [← Option.some_injective _ h3, hcontra] at h4
        exact h4 rfl
      have hchar0 : (ALPHABET.getD d0 ' ' == '1') = false := by
        simpa using alphabet_getD_ne_one d0 hd0lt hd0ne
      have hTWc : ((base58EncodeChars B).takeWhile (· == '1')).length = z := by
        rw [hchars, hdrest, List.map_cons,
          takeWhile_replicate_append_cons (fun x => x == '1') z '1'
            (ALPHABET.getD d0 ' ') (List.map (fun d => ALPHABET.getD d ' ') rest)
            rfl hchar0,
          List.length_replicate]
      constructor
      · rw [base58DecodeChars,
          if_neg (by rw [hchars, hdrest]; simp [List.isEmpty_iff]),
          hacc, hTWc]
        show Except.ok ((toDigitsAux 256 v v ++ List.replicate z 0).reverse)
          = Except.ok B
        rw [toDigitsAux_eq_digits (by norm_num) v v le_rfl, hdig256]
        rw [List.reverse_append, List.reverse_reverse, List.reverse_replicate, hsplit]
      · rw [hTWc, hz]

/-- C4: for every byte sequence `B`, `base58Decode (base58Encode B) = B`,
and the number of leading zero bytes of `B` equals the number of leading
`'1'` characters of `base58Encode B`. -/
theorem base58_roundtrip (B : List Nat) (h : ∀ b ∈ B, b < 256) :
    base58Decode (base58Encode B) = .ok B ∧
    (((base58Encode B).data.takeWhile (· == '1')).length
      = (B.takeWhile (· == 0)).length) :=
  roundtripChars B h

/-- Witness for C4 at the concrete byte sequence `[0, 7, 255]`. -/
theorem base58_roundtrip_witness :
    base58Decode (base58Encode [0, 7, 255]) = .ok [0, 7, 255] ∧
    ((((base58Encode [0, 7, 255]).data.takeWhile (· == '1')).length
      = ([0, 7, 255].takeWhile (· == 0)).length)) :=
  base58_roundtrip [0, 7, 255] (by decide)

/-! ### Message compilation -/

lemma toBase58_inj {p q : PublicKey} (h : p.toBase58 = q.toBase58) : p = q := by
  have hp := (roundtripChars p.val p.prop.2).1
  have hq := (roundtripChars q.val q.prop.2).1
  have h' : base58EncodeChars p.val = base58EncodeChars q.val := congrArg String.data h
  rw [h'] at hp
  rw [hp] at hq
  exact Subtype.ext (Except.ok.inj hq)

lemma key_beq_false {p q : PublicKey} (h : p ≠ q) :
    (p.toBase58 == q.toBase58) = false := by
  rw [beq_eq_false_iff_ne]
  exact fun hc => h (toBase58_inj hc)

lemma mergedMetas_eq_foldl (p : PublicKey) (ixs : List InstructionInput) :
    mergedMetas p ixs = (metaRefs p ixs).foldl addMeta [] := by
  have key : ∀ (l : List InstructionInput) (acc : List AccountMeta),
      l.foldl (fun acc ix =>
          ix.keys.foldl addMeta (addMeta acc ⟨ix.programId, false, false⟩)) acc
        = (l.flatMap (fun ix => ⟨ix.programId, false, false⟩ :: ix.keys)).foldl
            addMeta acc := by
    intro l
    induction l with
    | nil => intro acc; rfl
    | cons ix t ih =>
      intro acc
      rw [List.foldl_cons, List.flatMap_cons, List.foldl_append, List.foldl_cons]
      exact ih _
  rw [mergedMetas, metaRefs, List.foldl_cons]
  exact key ixs _

lemma addMeta_head (p : PublicKey) (acc : List AccountMeta) (m : AccountMeta)
    (h : acc.head? = some ⟨p, true, true⟩) :
    (addMeta acc m).head? = some ⟨p, true, true⟩ := by
  cases acc with
  | nil => simp at h
  | cons a t =>
    have ha : a = ⟨p, true, true⟩ := by simpa using h
    subst ha
    rw [addMeta]
    split
    · simp only [List.map_cons, List.head?_cons, updMeta, mergeFlags]
      split <;> simp
    · simp

lemma foldl_addMeta_head (p : PublicKey) :
    ∀ (rs : List AccountMeta) (acc : List AccountMeta),
      acc.head? = some ⟨p, true, true⟩ →
      (rs.foldl addMeta acc).head? = some ⟨p, true, true⟩ := by
  intro rs
  induction rs with
  | nil => intro acc h; exact h
  | cons r t ih => intro acc h; exact ih _ (addMeta_head p acc r h)

lemma mergedMetas_head (p : PublicKey) (ixs : List InstructionInput) :
    (mergedMetas p ixs).head? = some ⟨p, true, true⟩ := by
  rw [mergedMetas_eq_foldl, metaRefs, List.foldl_cons]
  exact foldl_addMeta_head p _ _ (by simp [addMeta])

lemma addMeta_keys_nodup (acc : List AccountMeta) (m : AccountMeta)
    (h : (acc.map (fun e => e.pubkey.toBase58)).Nodup) :
    ((addMeta acc m).map (fun e => e.pubkey.toBase58)).Nodup := by
  rw [addMeta]
  split
  · rw [List.map_map]
    have hfun : ((fun (e : AccountMeta) => e.pubkey.toBase58) ∘ updMeta m)
        = (fun (e : AccountMeta) => e.pubkey.toBase58) := by
      funext e
      simp only [Function.comp, updMeta, mergeFlags]
      split <;> rfl
    rw [hfun]
    exact h
  · rename_i hguard
    rw [List.map_append, List.nodup_append]
    refine ⟨h, by simp, ?_⟩
    intro a ha hmem
    obtain ⟨e, he, rfl⟩ := List.mem_map.mp ha
    have hm : e.pubkey.toBase58 = m.pubkey.toBase58 := by simpa using hmem
    have hany : acc.any (fun e => e.pubkey.toBase58 == m.pubkey.toBase58) = false := by
      simpa using hguard
    have hne := List.any_eq_false.mp hany e he
    exact hne (by rw [hm]; simp)

lemma mergedMetas_keys_nodup (p : PublicKey) (ixs : List InstructionInput) :
    ((mergedMetas p ixs).map (fun e => e.pubkey.toBase58)).Nodup := by
  rw [mergedMetas_eq_foldl]
  have key : ∀ (rs : List AccountMeta) (acc : List AccountMeta),
      (acc.map (fun e => e.pubkey.toBase58)).Nodup →
      ((rs.foldl addMeta acc).map (fun e => e.pubkey.toBase58)).Nodup := by
    intro rs
    induction rs with
    | nil => intro acc h; exact h
    | cons r t ih => intro acc h; exact ih _ (addMeta_keys_nodup acc r h)
  exact key _ [] (by simp)

lemma orderedMetas_perm (p : PublicKey) (ixs : List InstructionInput) :
    List.Perm (orderedMetas p ixs) (mergedMetas p ixs) := by
  have h1 := List.filter_append_perm (fun m : AccountMeta => m.isWritable)
    (signerMetas p ixs)
  have h2 := List.filter_append_perm (fun m : AccountMeta => m.isWritable)
    (nonSignerMetas p ixs)
  have h3 := List.filter_append_perm (fun m : AccountMeta => m.isSigner)
    (mergedMetas p ixs)
  have h4 : List.Perm
      ((signerMetas p ixs).filter (fun m => m.isWritable) ++
        (signerMetas p ixs).filter (fun m => !m.isWritable) ++
        ((nonSignerMetas p ixs).filter (fun m => m.isWritable) ++
          (nonSignerMetas p ixs).filter (fun m => !m.isWritable)))
      (mergedMetas p ixs) := (h1.append h2).trans h3
  rw [orderedMetas]
  simpa [List.append_assoc] using h4

lemma length_filter_split {α : Type} (p : α → Bool) (l : List α) :
    (l.filter p).length + (l.filter (fun x => !p x)).length = l.length := by
  have := (List.filter_append_perm p l).length_eq
  simpa using this

lemma head?_filter_of_pos {α : Type} (p : α → Bool) (l : List α) (a : α)
    (hl : l.head? = some a) (ha : p a = true) : (l.filter p).head? = some a := by
  cases l with
  | nil => simp at hl
  | cons x t =>
    have hx : x = a := by simpa using hl
    subst hx
    simp [List.filter_cons, ha]

lemma orderedMetas_head (p : PublicKey) (ixs : List InstructionInput) :
    (orderedMetas p ixs).head? = some ⟨p, true, true⟩ := by
  have hs : (signerMetas p ixs).head? = some ⟨p, true, true⟩ :=
    head?_filter_of_pos _ _ _ (mergedMetas_head p ixs) rfl
  have hg1 : ((signerMetas p ixs).filter (fun m => m.isWritable)).head?
      = some ⟨p, true, true⟩ :=
    head?_filter_of_pos _ _ _ hs rfl
  rw [orderedMetas]
  simp [hg1]

/-- C2: for every compiled message, the fee payer is at account-table
index 0 and its merged meta is signer+writable; no address appears twice
in the account table; `requiredSignatures + readonlyUnsigned +
(nonsigner-writable count)` equals the table length; and the four
partition groups' sizes sum to the table length. -/
theorem compile_invariants (payerKey : PublicKey) (recentBlockhash : String)
    (instructions : List InstructionInput) :
    ((compile payerKey recentBlockhash instructions).accountKeys.head?
        = some payerKey ∧
      (orderedMetas payerKey instructions).head? = some ⟨payerKey, true, true⟩) ∧
    (compile payerKey recentBlockhash instructions).accountKeys.Nodup ∧
    ((compile payerKey recentBlockhash instructions).header.requiredSignatures +
      (compile payerKey recentBlockhash instructions).header.readonlyUnsigned +
      ((nonSignerMetas payerKey instructions).filter (fun m => m.isWritable)).length
      = (compile payerKey recentBlockhash instructions).accountKeys.length) ∧
    (((signerMetas payerKey instructions).filter (fun m => m.isWritable)).length +
      ((signerMetas payerKey instructions).filter (fun m => !m.isWritable)).length +
      ((nonSignerMetas payerKey instructions).filter (fun m => m.isWritable)).length +
      ((nonSignerMetas payerKey instructions).filter (fun m => !m.isWritable)).length
      = (compile payerKey recentBlockhash instructions).accountKeys.length) := by
  have hord := orderedMetas_head payerKey instructions
  have hperm := orderedMetas_perm payerKey instructions
  have hlen : (compile payerKey recentBlockhash instructions).accountKeys.length
      = (mergedMetas payerKey instructions).length := by
    show ((orderedMetas payerKey instructions).map (fun m => m.pubkey)).length = _
    rw [List.length_map, hperm.length_eq]
  have hsplitS := length_filter_split (fun m : AccountMeta => m.isSigner)
    (mergedMetas payerKey instructions)
  have hsplitW := length_filter_split (fun m : AccountMeta => m.isWritable)
    (signerMetas payerKey instructions)
  have hsplitW' := length_filter_split (fun m : AccountMeta => m.isWritable)
    (nonSignerMetas payerKey instructions)
  refine ⟨⟨?_, hord⟩, ?_, ?_, ?_⟩
  · show ((orderedMetas payerKey instructions).map (fun m => m.pubkey)).head? = _
    rw [List.head?_map, hord]
    rfl
  · -- no address appears twice
    have hmk := mergedMetas_keys_nodup payerKey instructions
    have hok : ((orderedMetas payerKey instructions).map
        (fun e => e.pubkey.toBase58)).Nodup :=
      (hperm.map (fun e => e.pubkey.toBase58)).nodup_iff.mpr hmk
    have : (((orderedMetas payerKey instructions).map (fun m => m.pubkey)).map
        PublicKey.toBase58).Nodup := by
      rw [List.map_map]
      exact hok
    exact this.of_map
  · show (signerMetas payerKey instructions).length +
      ((nonSignerMetas payerKey instructions).filter (fun m => !m.isWritable)).length +
      _ = _
    rw [hlen, ← hsplitS]
    show _ = (signerMetas payerKey instructions).length +
      (nonSignerMetas payerKey instructions).length
    omega
  · rw [hlen, ← hsplitS]
    show _ = (signerMetas payerKey instructions).length +
      (nonSignerMetas payerKey instructions).length
    omega

/-- The source's `SystemProgram.programId` is the decode of the 32-`'1'`
base-58 literal, i.e. 32 zero bytes. -/
lemma systemProgramId_decode :
    base58Decode SYSTEM_PROGRAM_ID = .ok systemProgramId.val := rfl

lemma toLittleEndian_length : ∀ (v n : Nat), (toLittleEndian v n).length = n
  | _, 0 => rfl
  | v, n + 1 => by simp [toLittleEndian, toLittleEndian_length (v >>> 8) n]

/-- C1 (amended): for a fee payer `P` and a single `SystemProgram.transfer`
instruction from `P` to a distinct recipient `R` (12-byte data: 4-byte
little-endian discriminator 2, then 8-byte little-endian amount),
`compile` produces exactly the 3 accounts `[P, R, system-program]` in
that order — but the header is `{1, 0, 1}` (`P` is the only signer), not
`{2, 0, 1}`. -/
theorem transfer_compile (P R : PublicKey) (bh : String) (amt : Nat)
    (hPR : P ≠ R) (hPs : P ≠ systemProgramId) (hRs : R ≠ systemProgramId) :
    (compile P bh [SystemProgram.transfer P R amt]).accountKeys
      = [P, R, systemProgramId] ∧
    (compile P bh [SystemProgram.transfer P R amt]).header = ⟨1, 0, 1⟩ ∧
    (SystemProgram.transfer P R amt).data
      = [2, 0, 0, 0] ++ toLittleEndian amt 8 ∧
    (SystemProgram.transfer P R amt).data.length = 12 := by
  have n1 : P.toBase58 ≠ systemProgramId.toBase58 := fun hc => hPs (toBase58_inj hc)
  have n2 : systemProgramId.toBase58 ≠ P.toBase58 := fun hc => hPs (toBase58_inj hc.symm)
  have n3 : P.toBase58 ≠ R.toBase58 := fun hc => hPR (toBase58_inj hc)
  have n4 : R.toBase58 ≠ P.toBase58 := fun hc => hPR (toBase58_inj hc.symm)
  have n5 : R.toBase58 ≠ systemProgramId.toBase58 := fun hc => hRs (toBase58_inj hc)
  have n6 : systemProgramId.toBase58 ≠ R.toBase58 := fun hc => hRs (toBase58_inj hc.symm)
  have hmerged : mergedMetas P [SystemProgram.transfer P R amt]
      = [⟨P, true, true⟩, ⟨systemProgramId, false, false⟩, ⟨R, false, true⟩] := by
    simp [mergedMetas, SystemProgram.transfer, addMeta, updMeta, mergeFlags,
      n1, n2, n3, n4, n5, n6]
  refine ⟨?_, ?_, rfl, by simp [SystemProgram.transfer, toLittleEndian_length]⟩
  · show (orderedMetas P [SystemProgram.transfer P R amt]).map (fun m => m.pubkey) = _
    rw [orderedMetas, signerMetas, nonSignerMetas, hmerged]
    rfl
  · show (⟨(signerMetas P _).length, _, _⟩ : MessageHeader) = _
    rw [signerMetas, nonSignerMetas, hmerged]
    rfl

/-- Counterexample for C1 as stated: at concrete distinct keys the
compiled header is `{1, 0, 1}`, not `{2, 0, 1}`. -/
theorem transfer_compile_counterexample :
    (compile testKeyA "" [SystemProgram.transfer testKeyA testKeyB 5]).accountKeys
      = [testKeyA, testKeyB, systemProgramId] ∧
    (compile testKeyA "" [SystemProgram.transfer testKeyA testKeyB 5]).header
      = ⟨1, 0, 1⟩ ∧
    (compile testKeyA "" [SystemProgram.transfer testKeyA testKeyB 5]).header
      ≠ ⟨2, 0, 1⟩ := by
  decide

/-- Witness for the amended C1 at concrete keys. -/
theorem transfer_compile_witness :
    (compile testKeyA "x" [SystemProgram.transfer testKeyA testKeyB 7]).accountKeys
      = [testKeyA, testKeyB, systemProgramId] ∧
    (compile testKeyA "x" [SystemProgram.transfer testKeyA testKeyB 7]).header
      = ⟨1, 0, 1⟩ ∧
    (SystemProgram.transfer testKeyA testKeyB 7).data
      = [2, 0, 0, 0] ++ toLittleEndian 7 8 ∧
    (SystemProgram.transfer testKeyA testKeyB 7).data.length = 12 :=
  transfer_compile testKeyA testKeyB "x" 7 (by decide) (by decide) (by decide)

/-! ### Blockhash validation (compile vs. serializeMessage) -/

/-- Counterexample for C6 as stated: `compile` itself never validates the
blockhash — with the empty (hence malformed) blockhash it still returns a
compiled message carrying that blockhash; the failure only occurs in
`serializeMessage`. -/
theorem compile_malformed_blockhash_counterexample :
    (compile testKeyA "" []).recentBlockhash = "" ∧
    (compile testKeyA "" []).accountKeys = [testKeyA] ∧
    serializeMessage (compile testKeyA "" []) = .error "invalid blockhash length" :=
  ⟨rfl, rfl, rfl⟩

/-- C6 (amended): `compile` is total and copies the blockhash through
unvalidated; the 32-byte check happens in `serializeMessage`, which fails
exactly when the decoded blockhash is not 32 bytes. -/
theorem compile_blockhash_deferred (p : PublicKey) (r : String)
    (ixs : List InstructionInput) (c : CompiledMessage) (bs : List Nat)
    (hdec : base58Decode c.recentBlockhash = .ok bs) :
    (compile p r ixs).recentBlockhash = r ∧
    (bs.length ≠ 32 → serializeMessage c = .error "invalid blockhash length") ∧
    (bs.length = 32 → ∃ out, serializeMessage c = .ok out) := by
  refine ⟨rfl, ?_, ?_⟩
  · intro h
    simp only [serializeMessage, hdec]
    rw [if_pos h]
  · intro h
    simp only [serializeMessage, hdec]
    rw [if_neg (by omega)]
    exact ⟨_, rfl⟩

/-- Witness for the amended C6. -/
theorem compile_blockhash_deferred_witness :
    (compile testKeyA "" []).recentBlockhash = "" ∧
    (([] : List Nat).length ≠ 32 →
      serializeMessage (compile testKeyA "" []) = .error "invalid blockhash length") ∧
    (([] : List Nat).length = 32 →
      ∃ out, serializeMessage (compile testKeyA "" []) = .ok out) :=
  compile_blockhash_deferred testKeyA "" [] (compile testKeyA "" []) [] rfl

/-! ### Serialize-before-sign -/

/-- C3: a legacy or versioned transaction whose stored signature list is
empty (no sign call yet, or sign called with zero keypairs) fails to
serialize instead of emitting bytes with zero signatures. -/
theorem serialize_unsigned_fails (tx : Transaction) (vtx : VersionedTransaction)
    (htx : tx.signatures = []) (hvtx : vtx.signatures = []) :
    Transaction.serialize tx = .error "transaction not signed" ∧
    VersionedTransaction.serialize vtx = .error "transaction not signed" := by
  constructor
  · rw [Transaction.serialize, htx]
    rfl
  · rw [VersionedTransaction.serialize, hvtx]
    rfl

/-- Witness for C3 at concrete unsigned transactions. -/
theorem serialize_unsigned_fails_witness :
    Transaction.serialize testTx = .error "transaction not signed" ∧
    VersionedTransaction.serialize testVtx = .error "transaction not signed" :=
  serialize_unsigned_fails testTx testVtx rfl rfl

/-! ### Signing replaces the signature list -/

/-- C10: each `sign` call replaces the stored signature list with exactly
one `(publicKey, signature)` pair per supplied keypair, in keypair
argument order, independent of any previously stored signatures — for
both legacy and versioned transactions. -/
theorem sign_replaces_signatures (tx : Transaction) (ks : List Keypair)
    (tx' : Transaction) (h : Transaction.sign tx ks = .ok tx')
    (vtx : VersionedTransaction) (vks : List Keypair)
    (vtx' : VersionedTransaction) (hv : VersionedTransaction.sign vtx vks = .ok vtx') :
    (∃ m, serializeMessage (compile tx.feePayer tx.recentBlockhash tx.instructions)
        = .ok m ∧
      tx'.signatures = ks.map (fun kp => (kp.publicKey, kp.sign m))) ∧
    (∃ vm, vtx.message.serialize = .ok vm ∧
      vtx'.signatures = vks.map (fun kp => (kp.publicKey, kp.sign vm))) := by
  constructor
  · rw [Transaction.sign] at h
    cases hm : serializeMessage (compile tx.feePayer tx.recentBlockhash tx.instructions) with
    | error e => rw [hm] at h; exact absurd h (by simp)
    | ok m =>
      rw [hm] at h
      refine ⟨m, rfl, ?_⟩
      have := Except.ok.inj h
      rw [← this]
  · rw [VersionedTransaction.sign] at hv
    cases hm : vtx.message.serialize with
    | error e => rw [hm] at hv; exact absurd hv (by simp)
    | ok vm =>
      rw [hm] at hv
      refine ⟨vm, rfl, ?_⟩
      have := Except.ok.inj hv
      rw [← this]

/-- Witness for C10: concrete sign calls on fixtures whose stored
signature lists were previously non-empty are fully replaced. -/
theorem sign_replaces_signatures_witness :
    (∃ m, serializeMessage
        (compile testSignedTx.feePayer testSignedTx.recentBlockhash
          testSignedTx.instructions) = .ok m ∧
      testSignedTx.signatures
        = [testKeypair].map (fun kp => (kp.publicKey, kp.sign m))) ∧
    (∃ vm, testSignedVtx.message.serialize = .ok vm ∧
      testSignedVtx.signatures
        = [testKeypair].map (fun kp => (kp.publicKey, kp.sign vm))) :=
  sign_replaces_signatures testSignedTx [testKeypair] testSignedTx rfl
    testSignedVtx [testKeypair] testSignedVtx rfl

/-! ### Permutation behaviour of compilation -/

lemma updMeta_pubkey (m e : AccountMeta) : (updMeta m e).pubkey = e.pubkey := by
  rw [updMeta]
  split <;> rfl

lemma mergeFlags_pubkey (e m : AccountMeta) : (mergeFlags e m).pubkey = e.pubkey := rfl

lemma any_key_map_updMeta (A : List AccountMeta) (r : AccountMeta) (k : String) :
    ((A.map (updMeta r)).any (fun e => e.pubkey.toBase58 == k))
      = A.any (fun e => e.pubkey.toBase58 == k) := by
  rw [List.any_map]
  congr 1
  funext e
  simp [Function.comp, updMeta_pubkey]

lemma perm_any {α : Type} {l1 l2 : List α} (h : List.Perm l1 l2) (p : α → Bool) :
    l1.any p = l2.any p := by
  cases h1 : l1.any p with
  | true =>
    obtain ⟨x, hx, hpx⟩ := List.any_eq_true.mp h1
    exact (List.any_eq_true.mpr ⟨x, h.mem_iff.mp hx, hpx⟩).symm
  | false =>
    cases h2 : l2.any p with
    | false => rfl
    | true =>
      obtain ⟨x, hx, hpx⟩ := List.any_eq_true.mp h2
      have hc := List.any_eq_true.mpr (⟨x, h.mem_iff.mpr hx, hpx⟩ :
        ∃ x ∈ l1, p x = true)
      rw [h1] at hc
      cases hc

lemma addMeta_perm {acc1 acc2 : List AccountMeta} (h : List.Perm acc1 acc2)
    (m : AccountMeta) : List.Perm (addMeta acc1 m) (addMeta acc2 m) := by
  rw [addMeta, addMeta, perm_any h]
  split
  · exact h.map _
  · exact h.append_right _

lemma updMeta_comm (a b e : AccountMeta) :
    updMeta b (updMeta a e) = updMeta a (updMeta b e) := by
  by_cases h1 : (e.pubkey.toBase58 == a.pubkey.toBase58) = true <;>
    by_cases h2 : (e.pubkey.toBase58 == b.pubkey.toBase58) = true <;>
    simp [updMeta, mergeFlags, h1, h2, Bool.or_assoc, Bool.or_comm, Bool.or_left_comm]

lemma addMeta_comm (acc : List AccountMeta) (a b : AccountMeta) :
    List.Perm (addMeta (addMeta acc a) b) (addMeta (addMeta acc b) a) := by
  cases hGa : acc.any (fun e => e.pubkey.toBase58 == a.pubkey.toBase58) with
  | true =>
    have e1 : addMeta acc a = acc.map (updMeta a) := by rw [addMeta, if_pos hGa]
    cases hGb : acc.any (fun e => e.pubkey.toBase58 == b.pubkey.toBase58) with
    | true =>
      have e2 : addMeta acc b = acc.map (updMeta b) := by rw [addMeta, if_pos hGb]
      have e3 : addMeta (acc.map (updMeta a)) b = (acc.map (updMeta a)).map (updMeta b) := by
        rw [addMeta, if_pos (by rw [any_key_map_updMeta]; exact hGb)]
      have e4 : addMeta (acc.map (updMeta b)) a = (acc.map (updMeta b)).map (updMeta a) := by
        rw [addMeta, if_pos (by rw [any_key_map_updMeta]; exact hGa)]
      rw [e1, e2, e3, e4, List.map_map, List.map_map,
        show (updMeta b ∘ updMeta a) = (updMeta a ∘ updMeta b) from
          funext (updMeta_comm a b)]
    | false =>
      have hne : (b.pubkey.toBase58 == a.pubkey.toBase58) = false := by
        rw [beq_eq_false_iff_ne]
        intro hc
        have heq : acc.any (fun e => e.pubkey.toBase58 == b.pubkey.toBase58)
            = acc.any (fun e => e.pubkey.toBase58 == a.pubkey.toBase58) := by
          congr 1
          funext e
          rw [hc]
        rw [heq, hGa] at hGb
        cases hGb
      have e2 : addMeta acc b = acc ++ [b] := by
        rw [addMeta, if_neg (by simp [hGb])]
      have e3 : addMeta (acc.map (updMeta a)) b = acc.map (updMeta a) ++ [b] := by
        rw [addMeta, if_neg (by rw [any_key_map_updMeta]; simp [hGb])]
      have e4 : addMeta (acc ++ [b]) a = acc.map (updMeta a) ++ [b] := by
        rw [addMeta, if_pos (by simp [hGa]), List.map_append]
        simp [updMeta, hne]
      rw [e1, e2, e3, e4]
  | false =>
    have e1 : addMeta acc a = acc ++ [a] := by
      rw [addMeta, if_neg (by simp [hGa])]
    cases hGb : acc.any (fun e => e.pubkey.toBase58 == b.pubkey.toBase58) with
    | true =>
      have hne : (a.pubkey.toBase58 == b.pubkey.toBase58) = false := by
        rw [beq_eq_false_iff_ne]
        intro hc
        have heq : acc.any (fun e => e.pubkey.toBase58 == a.pubkey.toBase58)
            = acc.any (fun e => e.pubkey.toBase58 == b.pubkey.toBase58) := by
          congr 1
          funext e
          rw [hc]
        rw [heq, hGb] at hGa
        cases hGa
      have e2 : addMeta acc b = acc.map (updMeta b) := by rw [addMeta, if_pos hGb]
      have e3 : addMeta (acc ++ [a]) b = acc.map (updMeta b) ++ [a] := by
        rw [addMeta, if_pos (by simp [hGb]), List.map_append]
        simp [updMeta, hne]
      have e4 : addMeta (acc.map (updMeta b)) a = acc.map (updMeta b) ++ [a] := by
        rw [addMeta, if_neg (by rw [any_key_map_updMeta]; simp [hGa])]
      rw [e1, e2, e3, e4]
    | false =>
      have e2 : addMeta acc b = acc ++ [b] := by
        rw [addMeta, if_neg (by simp [hGb])]
      by_cases hab : (a.pubkey.toBase58 == b.pubkey.toBase58) = true
      · -- both keys absent and equal: the appended entries merge
        have hba : (b.pubkey.toBase58 == a.pubkey.toBase58) = true := by
          rw [beq_iff_eq] at hab ⊢
          exact hab.symm
        have hpk : a.pubkey = b.pubkey := toBase58_inj (beq_iff_eq.mp hab)
        have hmapa : acc.map (updMeta a) = acc := by
          rw [List.map_congr_left (g := id) ?_, List.map_id]
          intro e he
          have := List.any_eq_false.mp hGa e he
          simp only [updMeta, id]
          rw [if_neg (by simpa using this)]
        have hmapb : acc.map (updMeta b) = acc := by
          rw [List.map_congr_left (g := id) ?_, List.map_id]
          intro e he
          have := List.any_eq_false.mp hGb e he
          simp only [updMeta, id]
          rw [if_neg (by simpa using this)]
        have e3 : addMeta (acc ++ [a]) b = acc ++ [mergeFlags a b] := by
          rw [addMeta, if_pos (by simp [hGb, hab]), List.map_append, hmapb]
          simp [updMeta, hab]
        have e4 : addMeta (acc ++ [b]) a = acc ++ [mergeFlags b a] := by
          rw [addMeta, if_pos (by simp [hGa, hba]), List.map_append, hmapa]
          simp [updMeta, hba]
        rw [e1, e2, e3, e4]
        have : mergeFlags a b = mergeFlags b a := by
          simp [mergeFlags, hpk, Bool.or_comm]
        rw [this]
      · -- both keys absent and distinct: appended in either order
        have hba : (b.pubkey.toBase58 == a.pubkey.toBase58) = false := by
          rw [beq_eq_false_iff_ne]
          intro hc
          exact (by simpa using hab : ¬a.pubkey.toBase58 = b.pubkey.toBase58) hc.symm
        have e3 : addMeta (acc ++ [a]) b = acc ++ [a] ++ [b] := by
          rw [addMeta, if_neg (by simp [hGb, hab])]
        have e4 : addMeta (acc ++ [b]) a = acc ++ [b] ++ [a] := by
          rw [addMeta, if_neg (by simp [hGa, hba])]
        rw [e1, e2, e3, e4, List.append_assoc, List.append_assoc]
        exact List.Perm.append_left acc (List.Perm.swap b a [])

lemma foldl_addMeta_acc_perm {acc1 acc2 : List AccountMeta}
    (h : List.Perm acc1 acc2) :
    ∀ rs : List AccountMeta,
      List.Perm (rs.foldl addMeta acc1) (rs.foldl addMeta acc2) := by
  intro rs
  induction rs generalizing acc1 acc2 with
  | nil => exact h
  | cons r t ih => exact ih (addMeta_perm h r)

lemma foldl_addMeta_list_perm {l1 l2 : List AccountMeta} (h : List.Perm l1 l2) :
    ∀ acc : List AccountMeta,
      List.Perm (l1.foldl addMeta acc) (l2.foldl addMeta acc) := by
  induction h with
  | nil => intro acc; exact List.Perm.refl _
  | cons x _ ih => intro acc; exact ih (addMeta acc x)
  | swap x y t => intro acc; exact foldl_addMeta_acc_perm (addMeta_comm acc y x) t
  | trans _ _ ih1 ih2 => intro acc; exact (ih1 acc).trans (ih2 acc)

lemma mergedMetas_perm_of_perm (p : PublicKey) {l1 l2 : List InstructionInput}
    (h : List.Perm l1 l2) :
    List.Perm (mergedMetas p l1) (mergedMetas p l2) := by
  rw [mergedMetas_eq_foldl, mergedMetas_eq_foldl, metaRefs, metaRefs,
    List.foldl_cons, List.foldl_cons]
  exact foldl_addMeta_list_perm
    (h.flatMap_right (fun ix => ⟨ix.programId, false, false⟩ :: ix.keys)) _

/-- C5 (amended): permuting the instruction list produces an account
table that is a permutation of the original (same address set, same
flags, same header counts) — but not necessarily in the same order. -/
theorem compile_permutation (p : PublicKey) (r1 r2 : String)
    (l1 l2 : List InstructionInput) (hperm : List.Perm l1 l2) :
    List.Perm (compile p r1 l1).accountKeys (compile p r2 l2).accountKeys ∧
    (compile p r1 l1).header = (compile p r2 l2).header := by
  have hm := mergedMetas_perm_of_perm p hperm
  have hs : List.Perm (signerMetas p l1) (signerMetas p l2) := hm.filter _
  have hn : List.Perm (nonSignerMetas p l1) (nonSignerMetas p l2) := hm.filter _
  constructor
  · refine List.Perm.map _ ?_
    show List.Perm (orderedMetas p l1) (orderedMetas p l2)
    rw [orderedMetas, orderedMetas]
    exact (((hs.filter _).append (hs.filter _)).append (hn.filter _)).append
      (hn.filter _)
  · show MessageHeader.mk _ _ _ = MessageHeader.mk _ _ _
    rw [hs.length_eq, (hs.filter _).length_eq, (hn.filter _).length_eq]

/-- Counterexample for C5 as stated: two permuted instruction lists over
the same account tuples whose compiled account tables differ in order. -/
theorem compile_permutation_counterexample :
    List.Perm [testIx1, testIx2] [testIx2, testIx1] ∧
    (∀ m ∈ [testIx1, testIx2], m ∈ [testIx2, testIx1]) ∧
    (compile testKeyA "" [testIx1, testIx2]).accountKeys
      = [testKeyA, testKeyB, testKeyC, systemProgramId] ∧
    (compile testKeyA "" [testIx2, testIx1]).accountKeys
      = [testKeyA, testKeyC, testKeyB, systemProgramId] ∧
    (compile testKeyA "" [testIx1, testIx2]).accountKeys
      ≠ (compile testKeyA "" [testIx2, testIx1]).accountKeys := by
  refine ⟨List.Perm.swap testIx2 testIx1 [], by decide, ?_, ?_, ?_⟩ <;> decide

/-- Witness for the amended C5 at the same concrete instruction lists. -/
theorem compile_permutation_witness :
    List.Perm (compile testKeyA "" [testIx1, testIx2]).accountKeys
      (compile testKeyA "" [testIx2, testIx1]).accountKeys ∧
    (compile testKeyA "" [testIx1, testIx2]).header
      = (compile testKeyA "" [testIx2, testIx1]).header :=
  compile_permutation testKeyA "" "" [testIx1, testIx2] [testIx2, testIx1]
    (List.Perm.swap testIx2 testIx1 [])

/-! ### Flag accumulation -/

lemma any_and_false {α : Type} (l : List α) (p q : α → Bool)
    (h : l.any p = false) : l.any (fun x => p x && q x) = false := by
  rw [List.any_eq_false] at h ⊢
  intro x hx
  simp [h x hx]

lemma foldl_addMeta_flags (rs : List AccountMeta) (k : String) :
    ((rs.foldl addMeta []).any (fun m => m.pubkey.toBase58 == k)
        = rs.any (fun r => r.pubkey.toBase58 == k)) ∧
    (∀ m ∈ rs.foldl addMeta [], m.pubkey.toBase58 = k →
      m.isSigner = rs.any (fun r => (r.pubkey.toBase58 == k) && r.isSigner) ∧
      m.isWritable = rs.any (fun r => (r.pubkey.toBase58 == k) && r.isWritable)) := by
  induction rs using List.reverseRecOn generalizing k with
  | nil => exact ⟨rfl, by simp⟩
  | append_singleton rs r ih =>
    have hfold : (rs ++ [r]).foldl addMeta [] = addMeta (rs.foldl addMeta []) r := by
      rw [List.foldl_append]
      rfl
    cases hG : (rs.foldl addMeta []).any
        (fun e => e.pubkey.toBase58 == r.pubkey.toBase58) with
    | true =>
      have hred : (rs ++ [r]).foldl addMeta []
          = (rs.foldl addMeta []).map (updMeta r) := by
        rw [hfold, addMeta, if_pos hG]
      constructor
      · rw [hred, any_key_map_updMeta, (ih k).1, List.any_append]
        cases hrk : (r.pubkey.toBase58 == k) with
        | false => simp [hrk]
        | true =>
          have hkeq : r.pubkey.toBase58 = k := beq_iff_eq.mp hrk
          have hpredeq : (fun (e : AccountMeta) => e.pubkey.toBase58 == r.pubkey.toBase58)
              = (fun e => e.pubkey.toBase58 == k) := by
            funext e
            rw [hkeq]
          have hrs : rs.any (fun x => x.pubkey.toBase58 == k) = true := by
            rw [← (ih k).1, ← hpredeq]
            exact hG
          simp [hrs]
      · intro m' hm' hk'
        rw [hred] at hm'
        obtain ⟨m, hm, rfl⟩ := List.mem_map.mp hm'
        have hkm : m.pubkey.toBase58 = k := by
          rw [← hk', updMeta_pubkey]
        by_cases hmr : (m.pubkey.toBase58 == r.pubkey.toBase58) = true
        · have hrk : r.pubkey.toBase58 = k := (beq_iff_eq.mp hmr).symm.trans hkm
          have hrkb : (r.pubkey.toBase58 == k) = true := beq_iff_eq.mpr hrk
          obtain ⟨ihs, ihw⟩ := (ih k).2 m hm hkm
          constructor
          · simp [updMeta, hmr, mergeFlags, List.any_append, hrkb, ihs, Bool.or_assoc]
          · simp [updMeta, hmr, mergeFlags, List.any_append, hrkb, ihw, Bool.or_assoc]
        · have hrkb : (r.pubkey.toBase58 == k) = false := by
            rw [beq_eq_false_iff_ne]
            intro hc
            exact hmr (beq_iff_eq.mpr (hkm.trans hc.symm))
          obtain ⟨ihs, ihw⟩ := (ih k).2 m hm hkm
          constructor
          · simp [updMeta, hmr, List.any_append, hrkb, ihs]
          · simp [updMeta, hmr, List.any_append, hrkb, ihw]
    | false =>
      have hred : (rs ++ [r]).foldl addMeta [] = rs.foldl addMeta [] ++ [r] := by
        rw [hfold, addMeta, if_neg (by simp [hG])]
      constructor
      · rw [hred, List.any_append, (ih k).1, List.any_append]
      · intro m' hm' hk'
        rw [hred] at hm'
        rcases List.mem_append.mp hm' with hmem | hmem
        · by_cases hrk : (r.pubkey.toBase58 == k) = true
          · exfalso
            have hpredeq : (fun (e : AccountMeta) => e.pubkey.toBase58 == r.pubkey.toBase58)
                = (fun e => e.pubkey.toBase58 == k) := by
              funext e
              rw [beq_iff_eq.mp hrk]
            have : (rs.foldl addMeta []).any (fun e => e.pubkey.toBase58 == k)
                = true :=
              List.any_eq_true.mpr ⟨m', hmem, beq_iff_eq.mpr hk'⟩
            rw [← hpredeq, hG] at this
            cases this
          · have hrkb : (r.pubkey.toBase58 == k) = false := by
              simpa using hrk
            obtain ⟨ihs, ihw⟩ := (ih k).2 m' hmem hk'
            constructor
            · simp [List.any_append, hrkb, ihs]
            · simp [List.any_append, hrkb, ihw]
        · have hmr : m' = r := by simpa using hmem
          subst hmr
          have hrkb : (m'.pubkey.toBase58 == k) = true := beq_iff_eq.mpr hk'
          have hrs : rs.any (fun x => x.pubkey.toBase58 == k) = false := by
            rw [← (ih k).1]
            have hpredeq : (fun (e : AccountMeta) => e.pubkey.toBase58 == m'.pubkey.toBase58)
                = (fun e => e.pubkey.toBase58 == k) := by
              funext e
              rw [hk']
            rw [← hpredeq]
            exact hG
          constructor
          · simp [List.any_append, hrkb, any_and_false _ _ _ hrs]
          · simp [List.any_append, hrkb, any_and_false _ _ _ hrs]

/-- C8: in the compiled account table, an address's flags are the OR of
its flags over all references to it (fee payer seed, program ids,
instruction account lists); and a single `addMeta` merge never weakens a
stored flag. -/
theorem flag_accumulation (p : PublicKey) (ixs : List InstructionInput)
    (q : PublicKey)
    (href : (metaRefs p ixs).any (fun r => r.pubkey.toBase58 == q.toBase58) = true)
    (acc : List AccountMeta) (r e : AccountMeta) (he : e ∈ acc) :
    (∃ m ∈ orderedMetas p ixs, m.pubkey = q ∧
      m.isSigner = (metaRefs p ixs).any
          (fun x => (x.pubkey.toBase58 == q.toBase58) && x.isSigner) ∧
      m.isWritable = (metaRefs p ixs).any
          (fun x => (x.pubkey.toBase58 == q.toBase58) && x.isWritable)) ∧
    (∃ e' ∈ addMeta acc r, e'.pubkey = e.pubkey ∧
      (e.isSigner = true → e'.isSigner = true) ∧
      (e.isWritable = true → e'.isWritable = true)) := by
  constructor
  · obtain ⟨h1, h2⟩ := foldl_addMeta_flags (metaRefs p ixs) q.toBase58
    have hma : (mergedMetas p ixs).any
        (fun m => m.pubkey.toBase58 == q.toBase58) = true := by
      rw [mergedMetas_eq_foldl, h1]
      exact href
    obtain ⟨m, hm, hmk⟩ := List.any_eq_true.mp hma
    have hmk' : m.pubkey.toBase58 = q.toBase58 := beq_iff_eq.mp hmk
    rw [mergedMetas_eq_foldl] at hm
    obtain ⟨hs, hw⟩ := h2 m hm hmk'
    refine ⟨m, ?_, toBase58_inj hmk', hs, hw⟩
    apply (orderedMetas_perm p ixs).mem_iff.mpr
    rw [mergedMetas_eq_foldl]
    exact hm
  · rw [addMeta]
    split
    · refine ⟨updMeta r e, List.mem_map_of_mem _ he, updMeta_pubkey r e, ?_, ?_⟩ <;>
        · intro hf
          by_cases hc : (e.pubkey.toBase58 == r.pubkey.toBase58) = true <;>
            simp [updMeta, mergeFlags, hc, hf]
    · exact ⟨e, List.mem_append_left _ he, rfl, fun h => h, fun h => h⟩

/-- Witness for C8: `testKeyB` is referenced readonly-signer in one
instruction and writable-nonsigner in another, and ends up
signer+writable; and a concrete merge does not weaken flags. -/
theorem flag_accumulation_witness :
    (∃ m ∈ orderedMetas testKeyA
        [⟨systemProgramId, [⟨testKeyB, true, false⟩], []⟩,
         ⟨systemProgramId, [⟨testKeyB, false, true⟩], []⟩],
      m.pubkey = testKeyB ∧
      m.isSigner = (metaRefs testKeyA
          [⟨systemProgramId, [⟨testKeyB, true, false⟩], []⟩,
           ⟨systemProgramId, [⟨testKeyB, false, true⟩], []⟩]).any
          (fun x => (x.pubkey.toBase58 == testKeyB.toBase58) && x.isSigner) ∧
      m.isWritable = (metaRefs testKeyA
          [⟨systemProgramId, [⟨testKeyB, true, false⟩], []⟩,
           ⟨systemProgramId, [⟨testKeyB, false, true⟩], []⟩]).any
          (fun x => (x.pubkey.toBase58 == testKeyB.toBase58) && x.isWritable)) ∧
    (∃ e' ∈ addMeta [⟨testKeyB, true, false⟩] ⟨testKeyB, false, true⟩,
      e'.pubkey = (⟨testKeyB, true, false⟩ : AccountMeta).pubkey ∧
      ((⟨testKeyB, true, false⟩ : AccountMeta).isSigner = true →
        e'.isSigner = true) ∧
      ((⟨testKeyB, true, false⟩ : AccountMeta).isWritable = true →
        e'.isWritable = true)) :=
  flag_accumulation testKeyA
    [⟨systemProgramId, [⟨testKeyB, true, false⟩], []⟩,
     ⟨systemProgramId, [⟨testKeyB, false, true⟩], []⟩]
    testKeyB (by decide)
    [⟨testKeyB, true, false⟩] ⟨testKeyB, false, true⟩ ⟨testKeyB, true, false⟩
    (by decide)

/-! ### Transport response normalization -/

/-- C9: the remote transport's send-path normalization maps a raw string
result to `{status: "ok", signature: <that string>}`, and the
simulation-path normalization maps a (non-envelope) object carrying a
`value.err` field to status `"err"` when `err` is truthy and `"ok"`
otherwise. -/
theorem normalize_results (s : String) (fields vfields : List (String × JSValue))
    (hstatus : lookupField fields "status" = none)
    (hval : lookupField fields "value" = some (JSValue.object vfields)) :
    normalizeSendResult (.str s)
      = .object [("status", .str "ok"), ("signature", .str s)] ∧
    normalizeSimulationResult (.object fields)
      = .object [("status",
          if ((JSValue.object vfields).getField "err").truthy
          then .str "err" else .str "ok"),
        ("value", .object fields)] := by
  constructor
  · simp [normalizeSendResult, JSValue.truthy, JSValue.isObject, JSValue.isString]
  · simp [normalizeSimulationResult, JSValue.truthy, JSValue.isObject,
      JSValue.hasField, JSValue.getField, hstatus, hval]

/-- Witness for C9 at a concrete string and object. -/
theorem normalize_results_witness :
    normalizeSendResult (.str "sig")
      = .object [("status", .str "ok"), ("signature", .str "sig")] ∧
    normalizeSimulationResult
        (.object [("value", .object [("err", .null)])])
      = .object [("status",
          if ((JSValue.object [("err", JSValue.null)]).getField "err").truthy
          then .str "err" else .str "ok"),
        ("value", .object [("value", .object [("err", .null)])])] :=
  normalize_results "sig" [("value", .object [("err", .null)])] [("err", .null)]
    rfl rfl

end Solana
